import Mathlib

/-!
Verification of the shard-distributor core: the heartbeat handler
(src/unnamed/part_001, plus the smoothing variant in
src/service/sharddistributor/handler/executor.go) and the balancer
(src/service/sharddistributor/leader/process/balancer_test.go, the variant
with cooldown-gated redistribution and the error-returning
findLeastLoadedExecutor).

Modelling conventions:
- Go float64 values are embedded as `GoFloat`: NaN, signed infinity, or an
  exact rational. Multiplication by a positive constant and addition follow
  IEEE sign/NaN propagation rules; finite arithmetic is exact rational
  arithmetic (rounding is not modelled).
- Go maps are embedded as association lists `List (String × β)`; a read of a
  missing key yields the zero value, as in Go. Map iteration order in Go is
  unspecified; the code only iterates maps to feed deterministic sorts or to
  build maps, so list order is immaterial to the proved properties.
- Time is modelled at second granularity as `ℤ` (the code compares
  `now.Sub(time.Unix(prev, 0))` against 2s and stores `now.Unix()`).
- The store is modelled by an explicit state (`StoreState`) threaded through
  the handler, plus an error-injection record (`StoreBehavior`) standing for
  the failures a call may return. Every call to RecordHeartbeat or
  UpdateShardMetrics is logged as a `WriteOp`.
-/

/-- Model of a Go float64: NaN, an infinity (the Bool is the sign bit,
true = positive), or a finite value represented exactly as a rational. -/
inductive GoFloat where
  | nan : GoFloat
  | inf : Bool → GoFloat
  | finite : ℚ → GoFloat
deriving DecidableEq, Repr

/-- Multiplication of a float by a positive rational constant (used for the
EWMA coefficients 0.1 and 0.9): NaN propagates, infinities keep their sign,
finite values multiply exactly. -/
def GoFloat.mulPos (c : ℚ) : GoFloat → GoFloat
  | .nan => .nan
  | .inf s => .inf s
  | .finite q => .finite (c * q)

/-- IEEE addition on the float model: NaN propagates, opposite infinities
give NaN, an infinity absorbs finite values, finite values add exactly. -/
def GoFloat.add : GoFloat → GoFloat → GoFloat
  | .nan, _ => .nan
  | .inf _, .nan => .nan
  | .inf s, .inf t => if s = t then .inf s else .nan
  | .inf s, .finite _ => .inf s
  | .finite _, .nan => .nan
  | .finite _, .inf t => .inf t
  | .finite p, .finite q => .finite (p + q)

/-- Whether a float value is finite. -/
def GoFloat.isFinite : GoFloat → Bool
  | .finite _ => true
  | _ => false

/-- The EWMA update `_ewmaAlpha*report + (1-_ewmaAlpha)*prev` with
`_ewmaAlpha = 0.1`, as computed by the handlers. -/
def ewma (report prev : GoFloat) : GoFloat :=
  GoFloat.add (GoFloat.mulPos (1 / 10) report) (GoFloat.mulPos (9 / 10) prev)

abbrev ShardID := String

abbrev ExecutorID := String

/-- Association-list lookup, modelling a read of a Go map. -/
def lookupA {β : Type} : List (String × β) → String → Option β
  | [], _ => none
  | (k0, v) :: rest, k => if k0 = k then some v else lookupA rest k

/-- Go-map read with the zero value as default for a missing key. -/
def getA {β : Type} (m : List (String × β)) (k : String) (d : β) : β :=
  (lookupA m k).getD d

/-- Association-list write `m[k] = v`: replaces the binding in place, or
appends a new one, modelling a Go map assignment. -/
def setA {β : Type} : List (String × β) → String → β → List (String × β)
  | [], k, v => [(k, v)]
  | (k0, v0) :: rest, k, v =>
      if k0 = k then (k, v) :: rest else (k0, v0) :: setA rest k v

/-- Go `m[k] = append(m[k], s)` on a map of string slices. -/
def appendAt (m : List (String × List String)) (k : String) (s : String) :
    List (String × List String) :=
  setA m k (getA m k [] ++ [s])

/-- Go `m[k] = f(m[k])` on a map of float64 (missing key reads as 0). -/
def adjustQ (m : List (String × ℚ)) (k : String) (f : ℚ → ℚ) :
    List (String × ℚ) :=
  setA m k (f (getA m k 0))

/-- Per-shard statistics record used by the balancer (store.ShardStatistics). -/
structure ShardStatistics where
  SmoothedLoad : GoFloat
  LastMoveTime : ℤ
deriving DecidableEq, Repr

/-- safeLoad: coerce NaN and ±infinity to zero, keep finite values. -/
def safeLoad : GoFloat → ℚ
  | .nan => 0
  | .inf _ => 0
  | .finite q => q

/-- shardLoad: the smoothed load of a shard read through safeLoad; a nil
stats map or a missing entry reads as 0. -/
def shardLoad (stats : List (ShardID × ShardStatistics)) (shardID : ShardID) : ℚ :=
  match lookupA stats shardID with
  | none => 0
  | some stat => safeLoad stat.SmoothedLoad

/-- computeExecutorLoads: per executor, the sum of the shardLoad of its
assigned shards. -/
def computeExecutorLoads (assignments : List (ExecutorID × List ShardID))
    (stats : List (ShardID × ShardStatistics)) : List (ExecutorID × ℚ) :=
  assignments.map (fun p => (p.1, (p.2.map (shardLoad stats)).sum))

/-- removeShard: drop the first occurrence of target from the slice, as the
append-based Go implementation does. -/
def removeShard : List ShardID → ShardID → List ShardID
  | [], _ => []
  | id :: rest, target => if id = target then rest else id :: removeShard rest target

/-- One comparison step of findLeastLoadedExecutor: keep the running minimum
unless the candidate has strictly smaller load, or equal load and strictly
smaller count. The Go code caches minLoad in a variable; since loads is
never mutated the cached value always equals loads[minID]. -/
def flleStep (loads : List (ExecutorID × ℚ)) (counts : List (ExecutorID × ℕ))
    (minID id : ExecutorID) : ExecutorID :=
  if getA loads id 0 < getA loads minID 0 then id
  else if getA loads id 0 = getA loads minID 0 ∧ getA counts id 0 < getA counts minID 0 then id
  else minID

/-- findLeastLoadedExecutor: error on an empty loads map; otherwise scan the
lexicographically sorted executor ids keeping the minimum by (load, count).
The sorted id list is empty exactly when loads is empty. -/
def findLeastLoadedExecutor (loads : List (ExecutorID × ℚ))
    (counts : List (ExecutorID × ℕ)) : Except String ExecutorID :=
  match List.insertionSort (· ≤ ·) (loads.map Prod.fst) with
  | [] => .error "empty loads array"
  | id0 :: rest => .ok (rest.foldl (flleStep loads counts) id0)

/-- SortCriteria and Configuration from the balancer source; the Sorting
field is the numeric value of the SortCriteria enum. -/
structure Configuration where
  Cooldown : Bool
  Sorting : ℕ
deriving DecidableEq

/-- CoolDownTime = 60 (seconds). -/
def CoolDownTime : ℤ := 60

/-- FindElligbleShards: error if any shard lacks a stats entry; otherwise
keep, in order, the shards whose time since LastMoveTime strictly exceeds
CoolDownTime. The config argument is accepted but, as in the source, unused. -/
def FindElligbleShards (now : ℤ) (shardIDs : List ShardID)
    (stats : List (ShardID × ShardStatistics)) (_config : Configuration) :
    Except String (List ShardID) :=
  match shardIDs with
  | [] => .ok []
  | shardID :: rest =>
    match lookupA stats shardID with
    | none => .error "cound not find stats for shard id"
    | some stat =>
      match FindElligbleShards now rest stats _config with
      | .error e => .error e
      | .ok elig =>
          if now - stat.LastMoveTime > CoolDownTime then .ok (shardID :: elig)
          else .ok elig

/-- A donor candidate in redistributeToEmptyExecutors. -/
structure ShardCandidate where
  executor : ExecutorID
  shardID : ShardID
  weight : ℚ
deriving DecidableEq, Repr

/-- The sort.Slice comparator for donors: weight descending, ties broken by
executor id then shard id, both ascending. -/
def donorLess (a b : ShardCandidate) : Prop :=
  if a.weight = b.weight then
    (if a.executor = b.executor then a.shardID < b.shardID else a.executor < b.executor)
  else b.weight < a.weight

instance : DecidableRel donorLess := by
  intro a b
  unfold donorLess
  infer_instance

/-- Build the donor pool: for every non-empty executor, its eligible shards
with their weights; an error from FindElligbleShards aborts (the Go code
logs it and returns nil, loads). -/
def collectDonors (now : ℤ) (stats : List (ShardID × ShardStatistics)) :
    List (ExecutorID × List ShardID) → Except String (List ShardCandidate)
  | [] => .ok []
  | (executorID, shards) :: rest =>
    if shards.isEmpty then collectDonors now stats rest
    else
      match FindElligbleShards now shards stats ⟨true, 0⟩ with
      | .error e => .error e
      | .ok elig =>
        match collectDonors now stats rest with
        | .error e => .error e
        | .ok ds =>
            .ok (elig.map (fun sid => ⟨executorID, sid, shardLoad stats sid⟩) ++ ds)

/-- The inner donor-consuming loop: pop donors until one owned by a
different executor than the target is found; donors owned by the target
itself are consumed and skipped. Returns the candidate (if any) and the
remaining donors. -/
def popDonor (target : ExecutorID) : List ShardCandidate →
    Option ShardCandidate × List ShardCandidate
  | [] => (none, [])
  | c :: rest => if c.executor = target then popDonor target rest else (some c, rest)

/-- Mutable state of the steal loop: the used-shard set, the steals map, the
updatedLoads map, and the assignments map (which the loop mutates). -/
structure RedistState where
  used : List ShardID
  steals : List (ExecutorID × List ShardID)
  updatedLoads : List (ExecutorID × ℚ)
  assignments : List (ExecutorID × List ShardID)
deriving DecidableEq

/-- The outer target loop of redistributeToEmptyExecutors: for each empty
target, take the next donor not owned by it; skip the target if that donor
shard is already taken; otherwise record the steal, remove the shard from
the donor entry of assignments, and move the weight in updatedLoads. -/
def stealWalk : List ExecutorID → List ShardCandidate → RedistState → RedistState
  | [], _, s => s
  | _ :: _, [], s => s
  | target :: rest, c0 :: ds, s =>
    match popDonor target (c0 :: ds) with
    | (none, _) => stealWalk rest [] s
    | (some c, donors2) =>
      if c.shardID ∈ s.used then stealWalk rest donors2 s
      else
        stealWalk rest donors2
          { used := c.shardID :: s.used
            steals := appendAt s.steals target c.shardID
            updatedLoads :=
              adjustQ (adjustQ s.updatedLoads c.executor (fun q => q - c.weight))
                target (fun q => q + c.weight)
            assignments :=
              setA s.assignments c.executor
                (removeShard (getA s.assignments c.executor []) c.shardID) }

/-- redistributeToEmptyExecutors. Returns (steals, updatedLoads, and the
final contents of the assignments argument, which the Go code mutates in
place). The early-return paths hand back nil steals (modelled as []) and
the loads map unchanged. -/
def redistributeToEmptyExecutors (now : ℤ) (loads : List (ExecutorID × ℚ))
    (stats : List (ShardID × ShardStatistics))
    (assignments : List (ExecutorID × List ShardID)) :
    List (ExecutorID × List ShardID) × List (ExecutorID × ℚ) ×
      List (ExecutorID × List ShardID) :=
  if assignments.isEmpty then ([], loads, assignments)
  else
    let emptyExecutors := (assignments.filter (fun p => p.2.isEmpty)).map Prod.fst
    if emptyExecutors.isEmpty then ([], loads, assignments)
    else
      match collectDonors now stats assignments with
      | .error _ => ([], loads, assignments)
      | .ok donors =>
        if donors.isEmpty then ([], loads, assignments)
        else
          let donorsSorted := List.insertionSort donorLess donors
          let emptySorted := List.insertionSort (· ≤ ·) emptyExecutors
          let final := stealWalk emptySorted donorsSorted ⟨[], [], loads, assignments⟩
          (final.steals, final.updatedLoads, final.assignments)

/-- The shard sort comparator of assignUnassignedShards: weight descending. -/
def shardHeavier (stats : List (ShardID × ShardStatistics)) (a b : ShardID) : Prop :=
  shardLoad stats b < shardLoad stats a

instance (stats : List (ShardID × ShardStatistics)) : DecidableRel (shardHeavier stats) := by
  intro a b
  unfold shardHeavier
  infer_instance

/-- The assignment loop of assignUnassignedShards: place each shard on the
least-loaded executor, then bump that executor's running load and count.
An error from findLeastLoadedExecutor skips the shard (continue). -/
def assignLoop (stats : List (ShardID × ShardStatistics)) :
    List ShardID → List (ExecutorID × ℚ) → List (ExecutorID × ℕ) →
      List (ExecutorID × List ShardID) → List (ExecutorID × List ShardID)
  | [], _, _, assignment => assignment
  | shardID :: rest, curLoads, curCounts, assignment =>
    match findLeastLoadedExecutor curLoads curCounts with
    | .error _ => assignLoop stats rest curLoads curCounts assignment
    | .ok executorID =>
        assignLoop stats rest
          (adjustQ curLoads executorID (fun q => q + shardLoad stats shardID))
          (setA curCounts executorID (getA curCounts executorID 0 + 1))
          (appendAt assignment executorID shardID)

/-- assignUnassignedShards: empty plan on empty inputs; otherwise copy the
loads and derive counts from currentAssignments, sort the shards heaviest
first, and run the assignment loop. -/
def assignUnassignedShards (unassignedShards : List ShardID)
    (loads : List (ExecutorID × ℚ)) (stats : List (ShardID × ShardStatistics))
    (currentAssignments : List (ExecutorID × List ShardID)) :
    List (ExecutorID × List ShardID) :=
  if unassignedShards.isEmpty ∨ loads.isEmpty then []
  else
    let currentLoads := loads
    let currentCounts := loads.map (fun p => (p.1, (getA currentAssignments p.1 []).length))
    let shards := List.insertionSort (shardHeavier stats) unassignedShards
    assignLoop stats shards currentLoads currentCounts []

/-- Executor status reported in a heartbeat. -/
inductive ExecutorStatus where
  | ACTIVE | DRAINING | STOPPED
deriving DecidableEq, Repr

/-- Shard status inside a report. -/
inductive ShardStatus where
  | READY | DONE
deriving DecidableEq, Repr

/-- Assignment status set by the balancer. -/
inductive AssignmentStatus where
  | READY | PENDING | STOPPED
deriving DecidableEq, Repr

/-- Per-shard report carried by a heartbeat (types.ShardStatusReport). Map
values are non-nil pointers in every scenario modelled here, so the report
is embedded by value. -/
structure ShardStatusReport where
  Status : ShardStatus
  ShardLoad : GoFloat
deriving DecidableEq, Repr

/-- A shard assignment (types.ShardAssignment). -/
structure ShardAssignment where
  Status : AssignmentStatus
deriving DecidableEq, Repr

/-- store.HeartbeatState as written by the part_001 handler. -/
structure HeartbeatState where
  LastHeartbeat : ℤ
  Status : ExecutorStatus
  ReportedShards : List (ShardID × ShardStatusReport)
deriving DecidableEq, Repr

/-- store.AssignedState. -/
structure AssignedState where
  AssignedShards : List (ShardID × ShardAssignment)
deriving DecidableEq, Repr

/-- store.ShardMetrics. -/
structure ShardMetrics where
  SmoothedLoad : GoFloat
  LastUpdateTime : ℤ
  LastMoveTime : ℤ
deriving DecidableEq, Repr

/-- store.NamespaceState, carrying the per-shard metrics map. -/
structure NamespaceState where
  ShardMetrics : List (ShardID × ShardMetrics)
deriving DecidableEq, Repr

/-- types.ExecutorHeartbeatRequest. -/
structure ExecutorHeartbeatRequest where
  Namespace : String
  ExecutorID : String
  Status : ExecutorStatus
  ShardStatusReports : List (ShardID × ShardStatusReport)
deriving DecidableEq, Repr

/-- types.ExecutorHeartbeatResponse. The ShardAssignments field is a Go map
whose zero value is nil; `none` models the nil map, `some` a non-nil map. -/
structure ExecutorHeartbeatResponse where
  ShardAssignments : Option (List (ShardID × ShardAssignment))
deriving DecidableEq, Repr

/-- The store error sentinels the handler distinguishes, plus a generic
transient failure. -/
inductive StoreErr where
  | executorNotFound
  | versionConflict
  | generic
deriving DecidableEq, Repr

/-- The store records relevant to one executor's heartbeat call:
its HeartbeatState, its AssignedState, and the NamespaceState. The
executor-not-found sentinel of GetHeartbeat corresponds to both the
heartbeat and assigned records being absent; the handler recovers from it
either way. -/
structure StoreState where
  heartbeat : Option HeartbeatState
  assigned : Option AssignedState
  nsState : NamespaceState
deriving DecidableEq, Repr

/-- Failure injection for the four store calls the handler makes. `none`
means the call succeeds. -/
structure StoreBehavior where
  getHeartbeatErr : Option StoreErr
  recordHeartbeatErr : Option StoreErr
  getStateErr : Option StoreErr
  updateShardMetricsErr : Option StoreErr
deriving DecidableEq, Repr

/-- A logged store write: each call to RecordHeartbeat or UpdateShardMetrics
(successful or not) is recorded. -/
inductive WriteOp where
  | recordHeartbeat (hb : HeartbeatState)
  | updateShardMetrics (metrics : List (ShardID × ShardMetrics))
deriving DecidableEq, Repr

/-- The set of shard ids assigned to the executor, as the handler builds it
from the (possibly nil) AssignedState. -/
def assignedSetOf (assignedShards : Option AssignedState) : List ShardID :=
  match assignedShards with
  | none => []
  | some s => s.AssignedShards.map Prod.fst

/-- One iteration of the metrics loop in updateShardload (part_001): skip a
shard with no report, skip a shard not assigned to this executor, otherwise
smooth its load and stamp the update time. -/
def metricStep (shardReports : List (ShardID × ShardStatusReport))
    (assignedSet : List ShardID) (now : ℤ) (p : ShardID × ShardMetrics) :
    Option (ShardID × ShardMetrics) :=
  match lookupA shardReports p.1 with
  | none => none
  | some report =>
    if p.1 ∈ assignedSet then
      some (p.1, { p.2 with
        SmoothedLoad := ewma report.ShardLoad p.2.SmoothedLoad
        LastUpdateTime := now })
    else none

/-- The new ShardMetrics map built by updateShardload (part_001): the
entries of the namespace state that have a report and are assigned to the
reporting executor, with smoothed load. -/
def newShardMetricsOf (stateMetrics : List (ShardID × ShardMetrics))
    (shardReports : List (ShardID × ShardStatusReport))
    (assignedSet : List ShardID) (now : ℤ) : List (ShardID × ShardMetrics) :=
  stateMetrics.filterMap (metricStep shardReports assignedSet now)

/-- Fold a metrics write into the namespace state (the store's
UpdateShardMetrics merging the written entries). -/
def applyShardMetrics (ns : NamespaceState) (m : List (ShardID × ShardMetrics)) :
    NamespaceState :=
  ⟨m.foldl (fun acc p => setA acc p.1 p.2) ns.ShardMetrics⟩

/-- updateShardload (part_001): GetState, build the new metrics map, skip
the write when it is empty, otherwise call UpdateShardMetrics and return
its error unchanged (this is where a version conflict propagates). -/
def updateShardload (beh : StoreBehavior) (st : StoreState) (now : ℤ)
    (shardReports : List (ShardID × ShardStatusReport))
    (assignedShards : Option AssignedState) :
    Except StoreErr Unit × StoreState × List WriteOp :=
  match beh.getStateErr with
  | some e => (.error e, st, [])
  | none =>
    let newMetrics :=
      newShardMetricsOf st.nsState.ShardMetrics shardReports (assignedSetOf assignedShards) now
    if newMetrics.isEmpty then (.ok (), st, [])
    else
      match beh.updateShardMetricsErr with
      | some e => (.error e, st, [WriteOp.updateShardMetrics newMetrics])
      | none =>
          (.ok (), { st with nsState := applyShardMetrics st.nsState newMetrics },
            [WriteOp.updateShardMetrics newMetrics])

/-- _convertResponse: a nil AssignedState yields the zero-valued response,
whose ShardAssignments map is nil; otherwise the response carries
AssignedShards. -/
def convertResponse (shards : Option AssignedState) : ExecutorHeartbeatResponse :=
  match shards with
  | none => ⟨none⟩
  | some s => ⟨some s.AssignedShards⟩

/-- The write path of Heartbeat (part_001, after the rate gate): write the
new HeartbeatState, then update the shard load; any error from either step
is returned to the caller; on success the response is built from the
assigned state obtained by the initial read. -/
def recordAndUpdate (beh : StoreBehavior) (st : StoreState) (now : ℤ)
    (req : ExecutorHeartbeatRequest) :
    Except StoreErr ExecutorHeartbeatResponse × StoreState × List WriteOp :=
  let newHb : HeartbeatState := ⟨now, req.Status, req.ShardStatusReports⟩
  match beh.recordHeartbeatErr with
  | some e => (.error e, st, [WriteOp.recordHeartbeat newHb])
  | none =>
    let st1 := { st with heartbeat := some newHb }
    match updateShardload beh st1 now req.ShardStatusReports st.assigned with
    | (.error e, st2, w2) => (.error e, st2, WriteOp.recordHeartbeat newHb :: w2)
    | (.ok _, st2, w2) =>
        (.ok (convertResponse st.assigned), st2, WriteOp.recordHeartbeat newHb :: w2)

/-- Heartbeat (part_001): read the previous heartbeat and assignment
(recovering from the not-found sentinel), rate-gate unchanged-status
requests within 2 seconds, otherwise take the write path. -/
def Heartbeat (beh : StoreBehavior) (st : StoreState) (now : ℤ)
    (req : ExecutorHeartbeatRequest) :
    Except StoreErr ExecutorHeartbeatResponse × StoreState × List WriteOp :=
  match beh.getHeartbeatErr with
  | some e => (.error e, st, [])
  | none =>
    match st.heartbeat with
    | some prev =>
      if req.Status = prev.Status ∧ now - prev.LastHeartbeat < 2 then
        (.ok (convertResponse st.assigned), st, [])
      else recordAndUpdate beh st now req
    | none => recordAndUpdate beh st now req

/-- smoothShardLoads (executor.go variant): smooth each current report
against the previous heartbeat's report for the same shard, defaulting to
the raw value when there is no previous report, and accumulate the
aggregated load. -/
def smoothShardLoads (previous current : List (ShardID × ShardStatusReport)) :
    List (ShardID × ShardStatusReport) × GoFloat :=
  if current.isEmpty then ([], GoFloat.finite 0)
  else
    let result := current.map (fun p =>
      let smoothedLoad :=
        match lookupA previous p.1 with
        | some prevReport => ewma p.2.ShardLoad prevReport.ShardLoad
        | none => p.2.ShardLoad
      (p.1, ShardStatusReport.mk p.2.Status smoothedLoad))
    let aggregated := (result.map (fun p => p.2.ShardLoad)).foldl GoFloat.add (GoFloat.finite 0)
    if result.isEmpty then ([], GoFloat.finite 0) else (result, aggregated)

/-- All shard ids in a plan or assignments map, with multiplicity. -/
def flattenShards (m : List (String × List String)) : List String :=
  (m.map Prod.snd).flatten

/-- The (load, count) comparison key maintained by the scan inside
findLeastLoadedExecutor: a is at least as good as b when its load is
smaller, or loads are equal and its count is no larger. -/
def keyLE (loads : List (ExecutorID × ℚ)) (counts : List (ExecutorID × ℕ))
    (a b : ExecutorID) : Prop :=
  getA loads a 0 < getA loads b 0 ∨
    (getA loads a 0 = getA loads b 0 ∧ getA counts a 0 ≤ getA counts b 0)

/-! ### Association-list lemmas -/

theorem lookupA_mem {β : Type} {m : List (String × β)} {k : String} {v : β}
    (h : lookupA m k = some v) : (k, v) ∈ m := by
  induction m with
  | nil => simp [lookupA] at h
  | cons p rest ih =>
    obtain ⟨k0, v0⟩ := p
    by_cases hk : k0 = k
    · subst hk
      simp [lookupA] at h
      subst h
      exact List.mem_cons_self _ _
    · simp [lookupA, hk] at h
      exact List.mem_cons_of_mem _ (ih h)

theorem lookupA_of_mem_nodup {β : Type} {m : List (String × β)} {k : String} {v : β}
    (hmem : (k, v) ∈ m) (hnd : (m.map Prod.fst).Nodup) : lookupA m k = some v := by
  induction m with
  | nil => simp at hmem
  | cons p rest ih =>
    obtain ⟨k0, v0⟩ := p
    simp only [List.map_cons, List.nodup_cons] at hnd
    rcases List.mem_cons.mp hmem with h | h
    · cases h.symm
      simp [lookupA]
    · by_cases hk : k0 = k
      · subst hk
        exact absurd (List.mem_map_of_mem Prod.fst h) hnd.1
      · simp only [lookupA, if_neg hk]
        exact ih h hnd.2

theorem lookupA_setA_self {β : Type} (m : List (String × β)) (k : String) (v : β) :
    lookupA (setA m k v) k = some v := by
  induction m with
  | nil => simp [setA, lookupA]
  | cons p rest ih =>
    obtain ⟨k0, v0⟩ := p
    by_cases hk : k0 = k
    · simp [setA, hk, lookupA]
    · simp [setA, hk, lookupA, ih]

theorem lookupA_setA_ne {β : Type} (m : List (String × β)) (k e : String) (v : β)
    (h : e ≠ k) : lookupA (setA m k v) e = lookupA m e := by
  have hke : ¬k = e := fun hh => h hh.symm
  induction m with
  | nil =>
    simp only [setA, lookupA]
    rw [if_neg hke]
  | cons p rest ih =>
    obtain ⟨k0, v0⟩ := p
    by_cases hk : k0 = k
    · subst hk
      simp only [setA, if_pos rfl, lookupA]
      rw [if_neg hke, if_neg hke]
    · simp only [setA, if_neg hk, lookupA, ih]

theorem getA_setA_self {β : Type} (m : List (String × β)) (k : String) (v d : β) :
    getA (setA m k v) k d = v := by
  simp [getA, lookupA_setA_self]

theorem getA_setA_ne {β : Type} (m : List (String × β)) (k e : String) (v d : β)
    (h : e ≠ k) : getA (setA m k v) e d = getA m e d := by
  simp [getA, lookupA_setA_ne _ _ _ _ h]

theorem setA_ne_nil {β : Type} (m : List (String × β)) (k : String) (v : β) :
    setA m k v ≠ [] := by
  cases m with
  | nil => simp [setA]
  | cons p rest =>
    obtain ⟨k0, v0⟩ := p
    by_cases hk : k0 = k <;> simp [setA, hk]

theorem map_fst_setA_of_mem {β : Type} {m : List (String × β)} {k : String} (v : β)
    (h : k ∈ m.map Prod.fst) : (setA m k v).map Prod.fst = m.map Prod.fst := by
  induction m with
  | nil => simp at h
  | cons p rest ih =>
    obtain ⟨k0, v0⟩ := p
    by_cases hk : k0 = k
    · subst hk
      simp [setA]
    · simp only [List.map_cons, List.mem_cons] at h
      rcases h with h | h
      · exact absurd h.symm hk
      · simp [setA, hk, ih h]

theorem map_fst_setA_subset {β : Type} (m : List (String × β)) (k : String) (v : β) :
    ∀ e ∈ (setA m k v).map Prod.fst, e = k ∨ e ∈ m.map Prod.fst := by
  induction m with
  | nil => simp [setA]
  | cons p rest ih =>
    obtain ⟨k0, v0⟩ := p
    intro e he
    by_cases hk : k0 = k
    · subst hk
      have hs : setA ((k0, v0) :: rest) k0 v = (k0, v) :: rest := by
        simp [setA]
      rw [hs] at he
      simp only [List.map_cons, List.mem_cons] at he ⊢
      tauto
    · simp only [setA, if_neg hk, List.map_cons, List.mem_cons] at he ⊢
      rcases he with he | he
      · tauto
      · rcases ih e he with h | h <;> tauto


theorem flattenShards_appendAt_perm (m : List (String × List String))
    (k s : String) : List.Perm (flattenShards (appendAt m k s)) (s :: flattenShards m) := by
  induction m with
  | nil => simp [appendAt, setA, getA, lookupA, flattenShards]
  | cons p rest ih =>
    obtain ⟨k0, v0⟩ := p
    by_cases hk : k0 = k
    · subst hk
      have hs : appendAt ((k0, v0) :: rest) k0 s = (k0, v0 ++ [s]) :: rest := by
        simp [appendAt, setA, getA, lookupA]
      rw [hs]
      simp only [flattenShards, List.map_cons, List.flatten]
      have h1 : List.Perm ((v0 ++ [s]) ++ (rest.map Prod.snd).flatten)
          ((s :: v0) ++ (rest.map Prod.snd).flatten) :=
        List.Perm.append_right _ (List.perm_append_singleton _ _)
      exact h1
    · have hs : appendAt ((k0, v0) :: rest) k s = (k0, v0) :: appendAt rest k s := by
        simp [appendAt, setA, hk, getA, lookupA]
      rw [hs]
      simp only [flattenShards, List.map_cons, List.flatten] at ih ⊢
      have h1 : List.Perm (v0 ++ ((appendAt rest k s).map Prod.snd).flatten)
          (v0 ++ (s :: ((rest.map Prod.snd).flatten))) := List.Perm.append_left _ ih
      exact h1.trans List.perm_middle


theorem removeShard_sublist (l : List ShardID) (t : ShardID) :
    (removeShard l t).Sublist l := by
  induction l with
  | nil => simp [removeShard]
  | cons id rest ih =>
    by_cases h : id = t
    · simp only [removeShard, if_pos h]
      exact (List.sublist_cons_self id rest)
    · simp only [removeShard, if_neg h]
      exact List.Sublist.cons₂ id ih

/-! ### Lemmas about the redistribution pass -/

theorem FindElligbleShards_spec (now : ℤ) (stats : List (ShardID × ShardStatistics))
    (cfg : Configuration) :
    ∀ (shardIDs elig : List ShardID),
      FindElligbleShards now shardIDs stats cfg = .ok elig →
      ∀ sid ∈ elig, ∃ stat, lookupA stats sid = some stat ∧
        now - stat.LastMoveTime > CoolDownTime := by
  intro shardIDs
  induction shardIDs with
  | nil =>
    intro elig h
    simp only [FindElligbleShards] at h
    injection h with h
    subst h
    intro sid hsid
    simp at hsid
  | cons shardID rest ih =>
    intro elig h
    simp only [FindElligbleShards] at h
    cases hstat : lookupA stats shardID with
    | none => simp only [hstat] at h; exact absurd h (by simp)
    | some stat =>
      simp only [hstat] at h
      cases hrec : FindElligbleShards now rest stats cfg with
      | error e => simp only [hrec] at h; exact absurd h (by simp)
      | ok elig0 =>
        simp only [hrec] at h
        by_cases hcd : now - stat.LastMoveTime > CoolDownTime
        · rw [if_pos hcd] at h
          injection h with h
          subst h
          intro sid hsid
          rcases List.mem_cons.mp hsid with h1 | h1
          · subst h1
            exact ⟨stat, hstat, hcd⟩
          · exact ih elig0 hrec sid h1
        · rw [if_neg hcd] at h
          injection h with h
          subst h
          exact ih elig0 hrec

theorem collectDonors_spec (now : ℤ) (stats : List (ShardID × ShardStatistics)) :
    ∀ (asg : List (ExecutorID × List ShardID)) (donors : List ShardCandidate),
      collectDonors now stats asg = .ok donors →
      ∀ c ∈ donors, ∃ stat, lookupA stats c.shardID = some stat ∧
        now - stat.LastMoveTime > CoolDownTime := by
  intro asg
  induction asg with
  | nil =>
    intro donors h
    simp only [collectDonors] at h
    injection h with h
    subst h
    intro c hc
    simp at hc
  | cons p rest ih =>
    obtain ⟨executorID, shards⟩ := p
    intro donors h
    simp only [collectDonors] at h
    by_cases he : shards.isEmpty
    · rw [if_pos he] at h
      exact ih donors h
    · rw [if_neg he] at h
      cases helig : FindElligbleShards now shards stats ⟨true, 0⟩ with
      | error e => simp only [helig] at h; exact absurd h (by simp)
      | ok elig =>
        simp only [helig] at h
        cases hrec : collectDonors now stats rest with
        | error e => simp only [hrec] at h; exact absurd h (by simp)
        | ok ds =>
          simp only [hrec] at h
          injection h with h
          subst h
          intro c hc
          rcases List.mem_append.mp hc with h1 | h1
          · obtain ⟨sid, hsid, hc⟩ := List.mem_map.mp h1
            obtain ⟨stat, hstat, hcd⟩ := FindElligbleShards_spec now stats ⟨true, 0⟩ shards elig helig sid hsid
            subst hc
            exact ⟨stat, hstat, hcd⟩
          · exact ih ds hrec c h1

theorem popDonor_spec (target : ExecutorID) :
    ∀ (ds ds2 : List ShardCandidate) (c : ShardCandidate),
      popDonor target ds = (some c, ds2) →
      c ∈ ds ∧ ∀ x ∈ ds2, x ∈ ds := by
  intro ds
  induction ds with
  | nil =>
    intro ds2 c h
    simp [popDonor] at h
  | cons c0 rest ih =>
    intro ds2 c h
    simp only [popDonor] at h
    by_cases he : c0.executor = target
    · rw [if_pos he] at h
      obtain ⟨h1, h2⟩ := ih ds2 c h
      exact ⟨List.mem_cons_of_mem _ h1, fun x hx => List.mem_cons_of_mem _ (h2 x hx)⟩
    · rw [if_neg he] at h
      injection h with h1 h2
      injection h1 with h1
      subst h1
      subst h2
      exact ⟨List.mem_cons_self _ _, fun x hx => List.mem_cons_of_mem _ hx⟩

theorem stealWalk_steals_inv (Q : ShardCandidate → Prop) :
    ∀ (targets : List ExecutorID) (donors : List ShardCandidate) (s : RedistState),
      (∀ c ∈ donors, Q c) →
      (∀ e sid, sid ∈ getA s.steals e [] → ∃ c, Q c ∧ c.shardID = sid) →
      ∀ e sid, sid ∈ getA (stealWalk targets donors s).steals e [] →
        ∃ c, Q c ∧ c.shardID = sid := by
  intro targets
  induction targets with
  | nil => intro donors s _ hs; simpa [stealWalk] using hs
  | cons target rest ih =>
    intro donors s hd hs
    cases donors with
    | nil => simpa [stealWalk] using hs
    | cons c0 ds =>
      simp only [stealWalk]
      cases hpop : popDonor target (c0 :: ds) with
      | mk oc donors2 =>
        cases oc with
        | none => exact ih [] s (by simp) hs
        | some c =>
          dsimp only
          obtain ⟨hcmem, hsub⟩ := popDonor_spec target (c0 :: ds) donors2 c hpop
          have hd2 : ∀ x ∈ donors2, Q x := fun x hx => hd x (hsub x hx)
          by_cases hused : c.shardID ∈ s.used
          · rw [if_pos hused]
            exact ih donors2 s hd2 hs
          · rw [if_neg hused]
            refine ih donors2 _ hd2 ?_
            intro e sid hsid
            by_cases he : e = target
            · subst he
              rw [show getA (appendAt s.steals e c.shardID) e [] =
                  getA s.steals e [] ++ [c.shardID] from getA_setA_self _ _ _ _] at hsid
              rcases List.mem_append.mp hsid with h1 | h1
              · exact hs e sid h1
              · simp only [List.mem_singleton] at h1
                exact ⟨c, hd c hcmem, h1.symm⟩
            · rw [show getA (appendAt s.steals target c.shardID) e [] =
                  getA s.steals e [] from getA_setA_ne _ _ _ _ _ he] at hsid
              exact hs e sid hsid

theorem stealWalk_steals_len :
    ∀ (targets : List ExecutorID) (donors : List ShardCandidate) (s : RedistState),
      targets.Nodup →
      (∀ t ∈ targets, getA s.steals t [] = []) →
      (∀ e, (getA s.steals e []).length ≤ 1) →
      ∀ e, (getA (stealWalk targets donors s).steals e []).length ≤ 1 := by
  intro targets
  induction targets with
  | nil => intro donors s _ _ hlen; simpa [stealWalk] using hlen
  | cons target rest ih =>
    intro donors s hnd hempty hlen
    have hndrest := (List.nodup_cons.mp hnd).2
    have htne : target ∉ rest := (List.nodup_cons.mp hnd).1
    cases donors with
    | nil => simpa [stealWalk] using hlen
    | cons c0 ds =>
      simp only [stealWalk]
      cases hpop : popDonor target (c0 :: ds) with
      | mk oc donors2 =>
        cases oc with
        | none =>
          exact ih [] s hndrest (fun t ht => hempty t (List.mem_cons_of_mem _ ht)) hlen
        | some c =>
          dsimp only
          by_cases hused : c.shardID ∈ s.used
          · rw [if_pos hused]
            exact ih donors2 s hndrest (fun t ht => hempty t (List.mem_cons_of_mem _ ht)) hlen
          · rw [if_neg hused]
            refine ih donors2 _ hndrest ?_ ?_
            · intro t ht
              have hne : t ≠ target := fun h => htne (h ▸ ht)
              rw [show getA (appendAt s.steals target c.shardID) t [] =
                  getA s.steals t [] from getA_setA_ne _ _ _ _ _ hne]
              exact hempty t (List.mem_cons_of_mem _ ht)
            · intro e
              by_cases he : e = target
              · subst he
                rw [show getA (appendAt s.steals e c.shardID) e [] =
                    getA s.steals e [] ++ [c.shardID] from getA_setA_self _ _ _ _]
                rw [hempty e (List.mem_cons_self _ _)]
                simp
              · rw [show getA (appendAt s.steals target c.shardID) e [] =
                    getA s.steals e [] from getA_setA_ne _ _ _ _ _ he]
                exact hlen e

theorem stealWalk_assignments_sublist :
    ∀ (targets : List ExecutorID) (donors : List ShardCandidate) (s : RedistState) (e : ExecutorID),
      (getA (stealWalk targets donors s).assignments e []).Sublist (getA s.assignments e []) := by
  intro targets
  induction targets with
  | nil => intro donors s e; simp [stealWalk]
  | cons target rest ih =>
    intro donors s e
    cases donors with
    | nil => simp [stealWalk]
    | cons c0 ds =>
      simp only [stealWalk]
      cases hpop : popDonor target (c0 :: ds) with
      | mk oc donors2 =>
        cases oc with
        | none => exact ih [] s e
        | some c =>
          dsimp only
          by_cases hused : c.shardID ∈ s.used
          · rw [if_pos hused]
            exact ih donors2 s e
          · rw [if_neg hused]
            refine (ih donors2 _ e).trans ?_
            by_cases he : e = c.executor
            · subst he
              rw [show getA (setA s.assignments c.executor
                    (removeShard (getA s.assignments c.executor []) c.shardID)) c.executor [] =
                  removeShard (getA s.assignments c.executor []) c.shardID from
                  getA_setA_self _ _ _ _]
              exact removeShard_sublist _ _
            · rw [show getA (setA s.assignments c.executor (removeShard (getA s.assignments c.executor []) c.shardID)) e [] =
                  getA s.assignments e [] from getA_setA_ne _ _ _ _ _ he]

/-- C6: every result of RedistributeToEmpty steals at most one shard per
target, and every stolen shard has a stats entry whose LastMoveTime is
strictly older than now minus the 60-second cooldown. -/
theorem C6_redistribute_cooldown (now : ℤ) (loads : List (ExecutorID × ℚ))
    (stats : List (ShardID × ShardStatistics))
    (assignments : List (ExecutorID × List ShardID))
    (hnd : (assignments.map Prod.fst).Nodup) :
    (∀ e, (getA (redistributeToEmptyExecutors now loads stats assignments).1 e []).length ≤ 1) ∧
    (∀ e s, s ∈ getA (redistributeToEmptyExecutors now loads stats assignments).1 e [] →
      ∃ stat, lookupA stats s = some stat ∧ now - stat.LastMoveTime > CoolDownTime) := by
  unfold redistributeToEmptyExecutors
  by_cases h1 : assignments.isEmpty
  · rw [if_pos h1]
    exact ⟨fun e => by simp [getA, lookupA], fun e s hs => by simp [getA, lookupA] at hs⟩
  · rw [if_neg h1]
    dsimp only
    by_cases h2 : ((assignments.filter (fun p => p.2.isEmpty)).map Prod.fst).isEmpty
    · rw [if_pos h2]
      exact ⟨fun e => by simp [getA, lookupA], fun e s hs => by simp [getA, lookupA] at hs⟩
    · rw [if_neg h2]
      cases hdon : collectDonors now stats assignments with
      | error e0 =>
        exact ⟨fun e => by simp [getA, lookupA], fun e s hs => by simp [getA, lookupA] at hs⟩
      | ok donors =>
        dsimp only
        by_cases h3 : donors.isEmpty
        · rw [if_pos h3]
          exact ⟨fun e => by simp [getA, lookupA], fun e s hs => by simp [getA, lookupA] at hs⟩
        · rw [if_neg h3]
          dsimp only
          have hndE : ((assignments.filter (fun p => p.2.isEmpty)).map Prod.fst).Nodup :=
            List.Nodup.sublist (List.Sublist.map Prod.fst (List.filter_sublist _)) hnd
          have hndS : (List.insertionSort (· ≤ ·)
              ((assignments.filter (fun p => p.2.isEmpty)).map Prod.fst)).Nodup :=
            ((List.perm_insertionSort _ _).nodup_iff).mpr hndE
          have hinit_empty : ∀ t ∈ List.insertionSort (· ≤ ·)
              ((assignments.filter (fun p => p.2.isEmpty)).map Prod.fst),
              getA (⟨[], [], loads, assignments⟩ : RedistState).steals t [] = [] := by
            intro t _
            simp [getA, lookupA]
          constructor
          · intro e
            exact stealWalk_steals_len _ _ _ hndS hinit_empty
              (fun e0 => by simp [getA, lookupA]) e
          · intro e s hs
            have hq := stealWalk_steals_inv
              (fun c => ∃ stat, lookupA stats c.shardID = some stat ∧
                now - stat.LastMoveTime > CoolDownTime)
              (List.insertionSort (· ≤ ·)
                ((assignments.filter (fun p => p.2.isEmpty)).map Prod.fst))
              (List.insertionSort donorLess donors)
              ⟨[], [], loads, assignments⟩
              (fun c hc => collectDonors_spec now stats assignments donors hdon c
                (by simpa using hc))
              (fun e0 sid hsid => by simp [getA, lookupA] at hsid)
              e s hs
            obtain ⟨c, ⟨stat, hstat, hcd⟩, hcs⟩ := hq
            exact ⟨stat, hcs ▸ hstat, hcd⟩

/-- C10 (amended): RedistributeToEmpty may mutate its assignments argument,
and the mutation only removes shards: for every executor, the slice held in
the assignments map after the call is a sublist of the slice held before.
AssignUnassigned, FindLeastLoaded and ComputeExecutorLoads only write to
local copies, which the embedding reflects by leaving their arguments out
of the returned state. -/
theorem C10_assignments_sublist (now : ℤ) (loads : List (ExecutorID × ℚ))
    (stats : List (ShardID × ShardStatistics))
    (assignments : List (ExecutorID × List ShardID)) :
    ∀ e, (getA (redistributeToEmptyExecutors now loads stats assignments).2.2 e []).Sublist
      (getA assignments e []) := by
  intro e
  unfold redistributeToEmptyExecutors
  by_cases h1 : assignments.isEmpty
  · rw [if_pos h1]
  · rw [if_neg h1]
    dsimp only
    by_cases h2 : ((assignments.filter (fun p => p.2.isEmpty)).map Prod.fst).isEmpty
    · rw [if_pos h2]
    · rw [if_neg h2]
      cases hdon : collectDonors now stats assignments with
      | error e0 => exact List.Sublist.refl _
      | ok donors =>
        dsimp only
        by_cases h3 : donors.isEmpty
        · rw [if_pos h3]
        · rw [if_neg h3]
          dsimp only
          exact stealWalk_assignments_sublist _ _ ⟨[], [], loads, assignments⟩ e

/-! ### Lemmas about findLeastLoadedExecutor and the assignment loop -/

theorem keyLE_trans (loads : List (ExecutorID × ℚ)) (counts : List (ExecutorID × ℕ))
    {a b c : ExecutorID} (h1 : keyLE loads counts a b) (h2 : keyLE loads counts b c) :
    keyLE loads counts a c := by
  rcases h1 with h1 | ⟨h1e, h1n⟩
  · rcases h2 with h2 | ⟨h2e, _⟩
    · exact Or.inl (h1.trans h2)
    · exact Or.inl (h2e ▸ h1)
  · rcases h2 with h2 | ⟨h2e, h2n⟩
    · exact Or.inl (h1e ▸ h2)
    · exact Or.inr ⟨h1e.trans h2e, h1n.trans h2n⟩

theorem flleStep_spec (loads : List (ExecutorID × ℚ)) (counts : List (ExecutorID × ℕ))
    (a b : ExecutorID) :
    (flleStep loads counts a b = b ∧ keyLE loads counts b a ∧
      ¬(getA loads a 0 = getA loads b 0 ∧ getA counts a 0 = getA counts b 0)) ∨
    (flleStep loads counts a b = a ∧ keyLE loads counts a b) := by
  unfold flleStep
  by_cases h1 : getA loads b 0 < getA loads a 0
  · rw [if_pos h1]
    refine Or.inl ⟨rfl, Or.inl h1, ?_⟩
    rintro ⟨he, _⟩
    exact absurd h1 (by rw [he]; exact lt_irrefl _)
  · rw [if_neg h1]
    by_cases h2 : getA loads b 0 = getA loads a 0 ∧ getA counts b 0 < getA counts a 0
    · rw [if_pos h2]
      refine Or.inl ⟨rfl, Or.inr ⟨h2.1, le_of_lt h2.2⟩, ?_⟩
      rintro ⟨_, hn⟩
      exact absurd h2.2 (by rw [hn]; exact lt_irrefl _)
    · rw [if_neg h2]
      refine Or.inr ⟨rfl, ?_⟩
      have hle : getA loads a 0 ≤ getA loads b 0 := le_of_not_lt h1
      rcases lt_or_eq_of_le hle with hlt | heq
      · exact Or.inl hlt
      · refine Or.inr ⟨heq, ?_⟩
        by_contra hgt
        exact h2 ⟨heq.symm, lt_of_not_le hgt⟩

theorem flleStep_cases (loads : List (ExecutorID × ℚ)) (counts : List (ExecutorID × ℕ))
    (a b : ExecutorID) :
    flleStep loads counts a b = a ∨ flleStep loads counts a b = b := by
  rcases flleStep_spec loads counts a b with ⟨h, _⟩ | ⟨h, _⟩
  · exact Or.inr h
  · exact Or.inl h

theorem flle_fold_spec (loads : List (ExecutorID × ℚ)) (counts : List (ExecutorID × ℕ)) :
    ∀ (l : List ExecutorID) (id0 : ExecutorID),
      List.Sorted (· ≤ ·) (id0 :: l) →
      (l.foldl (flleStep loads counts) id0 ∈ id0 :: l) ∧
      (∀ id ∈ id0 :: l, keyLE loads counts (l.foldl (flleStep loads counts) id0) id) ∧
      (∀ id ∈ id0 :: l,
        getA loads id 0 = getA loads (l.foldl (flleStep loads counts) id0) 0 →
        getA counts id 0 = getA counts (l.foldl (flleStep loads counts) id0) 0 →
        (l.foldl (flleStep loads counts) id0) ≤ id) := by
  intro l
  induction l with
  | nil =>
    intro id0 _
    refine ⟨List.mem_singleton_self _, ?_, ?_⟩
    · intro id hid
      rw [List.mem_singleton.mp hid]
      exact Or.inr ⟨rfl, le_refl _⟩
    · intro id hid _ _
      rw [List.mem_singleton.mp hid]
      exact le_refl _
  | cons x xs ih =>
    intro id0 hsorted
    have hid0x : id0 ≤ x := (List.sorted_cons.mp hsorted).1 x (List.mem_cons_self _ _)
    have hid0xs : ∀ z ∈ xs, id0 ≤ z := fun z hz =>
      (List.sorted_cons.mp hsorted).1 z (List.mem_cons_of_mem _ hz)
    have hsxxs : List.Sorted (· ≤ ·) (x :: xs) := (List.sorted_cons.mp hsorted).2
    have hxxs : ∀ z ∈ xs, x ≤ z := (List.sorted_cons.mp hsxxs).1
    have hsorted2 : List.Sorted (· ≤ ·) (flleStep loads counts id0 x :: xs) := by
      rw [List.sorted_cons]
      refine ⟨?_, (List.sorted_cons.mp hsxxs).2⟩
      intro z hz
      rcases flleStep_cases loads counts id0 x with h | h
      · rw [h]; exact hid0xs z hz
      · rw [h]; exact hxxs z hz
    obtain ⟨ihmem, ihmin, ihtie⟩ := ih (flleStep loads counts id0 x) hsorted2
    have hfold : (x :: xs).foldl (flleStep loads counts) id0 =
        xs.foldl (flleStep loads counts) (flleStep loads counts id0 x) := rfl
    rw [hfold]
    set r := xs.foldl (flleStep loads counts) (flleStep loads counts id0 x) with hr
    have hrstep : keyLE loads counts r (flleStep loads counts id0 x) :=
      ihmin _ (List.mem_cons_self _ _)
    constructor
    · rcases List.mem_cons.mp ihmem with h | h
      · rcases flleStep_cases loads counts id0 x with hs | hs
        · rw [hs] at h
          exact h ▸ List.mem_cons_self _ _
        · rw [hs] at h
          exact h ▸ List.mem_cons_of_mem _ (List.mem_cons_self _ _)
      · exact List.mem_cons_of_mem _ (List.mem_cons_of_mem _ h)
    constructor
    · intro id hid
      rcases List.mem_cons.mp hid with h | h
      · -- id = id0
        subst h
        rcases flleStep_spec loads counts id x with ⟨hs, hk, _⟩ | ⟨hs, _⟩
        · exact keyLE_trans loads counts (hs ▸ hrstep) hk
        · exact hs ▸ hrstep
      · rcases List.mem_cons.mp h with h | h
        · -- id = x
          subst h
          rcases flleStep_spec loads counts id0 id with ⟨hs, _, _⟩ | ⟨hs, hk⟩
          · exact hs ▸ hrstep
          · exact keyLE_trans loads counts (hs ▸ hrstep) hk
        · exact ihmin id (List.mem_cons_of_mem _ h)
    · intro id hid hle hln
      rcases List.mem_cons.mp hid with h | h
      · -- id = id0: the step compared id0 against x
        subst h
        rcases flleStep_spec loads counts id x with ⟨hs, hk, hne⟩ | ⟨hs, _⟩
        · -- the step chose x because (load, count) of x strictly beat id,
          -- yet id ties with the final minimum r: impossible
          exfalso
          have hrx : keyLE loads counts r x := hs ▸ hrstep
          rcases hrx with hlt | ⟨hre, hrn⟩ <;> rcases hk with h2 | ⟨h2e, h2n⟩
          · linarith
          · linarith
          · linarith
          · exact hne ⟨by linarith, by omega⟩
        · -- the step kept id: the final minimum ties with id directly
          exact ihtie id (by rw [hs]; exact List.mem_cons_self _ _) hle hln
      · rcases List.mem_cons.mp h with h | h
        · -- id = x: the step compared id0 against x
          subst h
          rcases flleStep_spec loads counts id0 id with ⟨hs, _, _⟩ | ⟨hs, hk⟩
          · exact ihtie id (by rw [hs]; exact List.mem_cons_self _ _) hle hln
          · -- the step kept id0, which is keyLE id; since id ties with r,
            -- id0 also ties with r, so r ≤ id0 ≤ id
            have hrid0 : keyLE loads counts r id0 := hs ▸ hrstep
            have h0e : getA loads id0 0 = getA loads id 0 := by
              rcases hk with h2 | ⟨h2e, _⟩
              · exfalso
                rcases hrid0 with h3 | ⟨h3e, _⟩ <;> linarith
              · exact h2e
            have h0re : getA loads r 0 = getA loads id0 0 := by
              rcases hrid0 with h3 | ⟨h3e, _⟩
              · linarith
              · exact h3e
            have h0rn : getA counts r 0 ≤ getA counts id0 0 := by
              rcases hrid0 with h3 | ⟨_, h3n⟩
              · linarith
              · exact h3n
            have h0n : getA counts id0 0 = getA counts r 0 := by
              rcases hk with h2 | ⟨_, h2n⟩
              · exfalso; linarith
              · omega
            have hr0 : r ≤ id0 :=
              ihtie id0 (by rw [hs]; exact List.mem_cons_self _ _) (h0e.trans hle) h0n
            exact hr0.trans hid0x
        · exact ihtie id (List.mem_cons_of_mem _ h) hle hln

theorem flle_ok (loads : List (ExecutorID × ℚ)) (counts : List (ExecutorID × ℕ))
    (h : loads ≠ []) :
    ∃ id, findLeastLoadedExecutor loads counts = .ok id ∧ id ∈ loads.map Prod.fst := by
  cases hs : List.insertionSort (· ≤ ·) (loads.map Prod.fst) with
  | nil =>
    exfalso
    have hlen := List.length_insertionSort (· ≤ ·) (loads.map Prod.fst)
    rw [hs] at hlen
    simp only [List.length_nil, List.length_map] at hlen
    exact h (List.length_eq_zero.mp hlen.symm)
  | cons id0 rest =>
    refine ⟨rest.foldl (flleStep loads counts) id0, ?_, ?_⟩
    · unfold findLeastLoadedExecutor
      rw [hs]
    · have hsorted : List.Sorted (· ≤ ·) (id0 :: rest) := by
        rw [← hs]
        exact List.sorted_insertionSort _ _
      have hmem := (flle_fold_spec loads counts rest id0 hsorted).1
      have : rest.foldl (flleStep loads counts) id0 ∈
          List.insertionSort (· ≤ ·) (loads.map Prod.fst) := by
        rw [hs]
        exact hmem
      simpa using this

/-- C8: findLeastLoadedExecutor errors on an empty loads map; on a non-empty
map with distinct keys it returns an executor whose load is minimal, whose
count is minimal among the minimum-load executors, and which is the
lexicographically smallest executor among those tying on both load and
count. -/
theorem C8_find_least_loaded (loads : List (ExecutorID × ℚ)) (counts : List (ExecutorID × ℕ)) :
    (loads = [] → findLeastLoadedExecutor loads counts = .error "empty loads array") ∧
    (loads ≠ [] → (loads.map Prod.fst).Nodup →
      ∃ m, findLeastLoadedExecutor loads counts = .ok m ∧ m ∈ loads.map Prod.fst ∧
        (∀ p ∈ loads, getA loads m 0 ≤ p.2) ∧
        (∀ p ∈ loads, p.2 = getA loads m 0 → getA counts m 0 ≤ getA counts p.1 0) ∧
        (∀ p ∈ loads, p.2 = getA loads m 0 → getA counts p.1 0 = getA counts m 0 →
          m ≤ p.1)) := by
  constructor
  · intro h
    subst h
    rfl
  · intro hne hnd
    cases hs : List.insertionSort (· ≤ ·) (loads.map Prod.fst) with
    | nil =>
      exfalso
      have hlen := List.length_insertionSort (· ≤ ·) (loads.map Prod.fst)
      rw [hs] at hlen
      simp only [List.length_nil, List.length_map] at hlen
      exact hne (List.length_eq_zero.mp hlen.symm)
    | cons id0 rest =>
      have hsorted : List.Sorted (· ≤ ·) (id0 :: rest) := by
        rw [← hs]
        exact List.sorted_insertionSort _ _
      obtain ⟨hmem, hmin, htie⟩ := flle_fold_spec loads counts rest id0 hsorted
      set m := rest.foldl (flleStep loads counts) id0 with hm
      have hmem2 : ∀ e ∈ loads.map Prod.fst, e ∈ id0 :: rest := by
        intro e he
        rw [← hs]
        simpa using he
      have hget : ∀ p ∈ loads, getA loads p.1 0 = p.2 := by
        intro p hp
        have := lookupA_of_mem_nodup (m := loads) (k := p.1) (v := p.2) (by simpa using hp) hnd
        simp [getA, this]
      refine ⟨m, ?_, ?_, ?_, ?_, ?_⟩
      · unfold findLeastLoadedExecutor
        rw [hs]
      · have : m ∈ List.insertionSort (· ≤ ·) (loads.map Prod.fst) := by
          rw [hs]; exact hmem
        simpa using this
      · intro p hp
        have hk := hmin p.1 (hmem2 p.1 (List.mem_map_of_mem Prod.fst hp))
        rw [← hget p hp]
        rcases hk with hk | ⟨hke, _⟩
        · exact le_of_lt hk
        · exact le_of_eq hke
      · intro p hp hpe
        have hk := hmin p.1 (hmem2 p.1 (List.mem_map_of_mem Prod.fst hp))
        have hpl : getA loads p.1 0 = getA loads m 0 := by rw [hget p hp]; exact hpe
        rcases hk with hk | ⟨_, hkn⟩
        · exact absurd (hpl ▸ hk) (lt_irrefl _)
        · exact hkn
      · intro p hp hpe hpn
        have hpl : getA loads p.1 0 = getA loads m 0 := by rw [hget p hp]; exact hpe
        exact htie p.1 (hmem2 p.1 (List.mem_map_of_mem Prod.fst hp)) hpl hpn

theorem assignLoop_perm (stats : List (ShardID × ShardStatistics)) :
    ∀ (shards : List ShardID) (cl : List (ExecutorID × ℚ)) (cc : List (ExecutorID × ℕ))
      (acc : List (ExecutorID × List ShardID)), cl ≠ [] →
      List.Perm (flattenShards (assignLoop stats shards cl cc acc))
        (shards ++ flattenShards acc) := by
  intro shards
  induction shards with
  | nil =>
    intro cl cc acc _
    simp [assignLoop]
  | cons shardID rest ih =>
    intro cl cc acc hcl
    obtain ⟨id, hid, _⟩ := flle_ok cl cc hcl
    simp only [assignLoop, hid]
    have hcl2 : adjustQ cl id (fun q => q + shardLoad stats shardID) ≠ [] := setA_ne_nil _ _ _
    have h1 := ih (adjustQ cl id (fun q => q + shardLoad stats shardID))
      (setA cc id (getA cc id 0 + 1)) (appendAt acc id shardID) hcl2
    refine h1.trans ?_
    have h2 : List.Perm (rest ++ flattenShards (appendAt acc id shardID))
        (rest ++ (shardID :: flattenShards acc)) :=
      List.Perm.append_left _ (flattenShards_appendAt_perm acc id shardID)
    exact h2.trans List.perm_middle

theorem assignLoop_keys (stats : List (ShardID × ShardStatistics)) (K : List ExecutorID) :
    ∀ (shards : List ShardID) (cl : List (ExecutorID × ℚ)) (cc : List (ExecutorID × ℕ))
      (acc : List (ExecutorID × List ShardID)),
      cl.map Prod.fst = K →
      (∀ e ∈ acc.map Prod.fst, e ∈ K) →
      ∀ e ∈ (assignLoop stats shards cl cc acc).map Prod.fst, e ∈ K := by
  intro shards
  induction shards with
  | nil =>
    intro cl cc acc _ hacc e he
    simp only [assignLoop] at he
    exact hacc e he
  | cons shardID rest ih =>
    intro cl cc acc hK hacc e he
    cases hf : findLeastLoadedExecutor cl cc with
    | error e0 =>
      simp only [assignLoop, hf] at he
      exact ih cl cc acc hK hacc e he
    | ok id =>
      have hidK : id ∈ K := by
        obtain ⟨id2, hid2, hmem2⟩ := flle_ok cl cc (by
          intro hnil
          subst hnil
          simp [findLeastLoadedExecutor] at hf)
        rw [hf] at hid2
        injection hid2 with hid2
        subst hid2
        exact hK ▸ hmem2
      simp only [assignLoop, hf] at he
      refine ih _ _ _ ?_ ?_ e he
      · rw [show adjustQ cl id (fun q => q + shardLoad stats shardID) =
            setA cl id (getA cl id 0 + shardLoad stats shardID) from rfl]
        rw [map_fst_setA_of_mem _ (hK ▸ hidK)]
        exact hK
      · intro e2 he2
        rcases map_fst_setA_subset acc id (getA acc id [] ++ [shardID]) e2 he2 with h | h
        · exact h ▸ hidK
        · exact hacc e2 h

/-- C7: assignUnassignedShards returns the empty plan when the unassigned
list or the loads map is empty; otherwise the plan contains exactly the
input shards (as a multiset, hence each distinct input shard exactly once)
and mentions only executors present in the loads map. -/
theorem C7_assign_unassigned (unassigned : List ShardID) (loads : List (ExecutorID × ℚ))
    (stats : List (ShardID × ShardStatistics))
    (currentAssignments : List (ExecutorID × List ShardID)) :
    (unassigned = [] ∨ loads = [] →
      assignUnassignedShards unassigned loads stats currentAssignments = []) ∧
    (loads ≠ [] →
      List.Perm
        (flattenShards (assignUnassignedShards unassigned loads stats currentAssignments))
        unassigned ∧
      (∀ e ∈ (assignUnassignedShards unassigned loads stats currentAssignments).map Prod.fst,
        e ∈ loads.map Prod.fst) ∧
      (unassigned.Nodup → ∀ s ∈ unassigned,
        (flattenShards
          (assignUnassignedShards unassigned loads stats currentAssignments)).count s = 1)) := by
  constructor
  · intro h
    rcases h with h | h <;> subst h <;> simp [assignUnassignedShards]
  · intro hl
    by_cases hu : unassigned = []
    · subst hu
      refine ⟨by simp [assignUnassignedShards, flattenShards], ?_, ?_⟩
      · intro e he
        simp [assignUnassignedShards] at he
      · intro _ s hs
        simp at hs
    · have hcond : ¬(unassigned.isEmpty ∨ loads.isEmpty) := by
        simp only [List.isEmpty_iff]
        tauto
      unfold assignUnassignedShards
      rw [if_neg hcond]
      dsimp only
      have hperm : List.Perm
          (flattenShards (assignLoop stats
            (List.insertionSort (shardHeavier stats) unassigned) loads
            (loads.map (fun p => (p.1, (getA currentAssignments p.1 []).length))) []))
          unassigned := by
        have h1 := assignLoop_perm stats (List.insertionSort (shardHeavier stats) unassigned)
          loads (loads.map (fun p => (p.1, (getA currentAssignments p.1 []).length))) [] hl
        refine h1.trans ?_
        have h2 : List.insertionSort (shardHeavier stats) unassigned ++ flattenShards [] =
            List.insertionSort (shardHeavier stats) unassigned := by
          simp [flattenShards]
        rw [h2]
        exact List.perm_insertionSort _ _
      refine ⟨hperm, ?_, ?_⟩
      · intro e he
        exact assignLoop_keys stats (loads.map Prod.fst) _ loads _ [] rfl (by simp) e he
      · intro hnd s hs
        rw [hperm.count_eq]
        exact List.count_eq_one_of_mem hnd hs

/-! ### Lemmas about the heartbeat handler -/

theorem mem_newShardMetricsOf {sm : List (ShardID × ShardMetrics)}
    {reports : List (ShardID × ShardStatusReport)} {aset : List ShardID} {now : ℤ}
    {sid : ShardID} {mm : ShardMetrics}
    (h : (sid, mm) ∈ newShardMetricsOf sm reports aset now) :
    ∃ prev report, (sid, prev) ∈ sm ∧ lookupA reports sid = some report ∧ sid ∈ aset ∧
      mm = ShardMetrics.mk (ewma report.ShardLoad prev.SmoothedLoad) now prev.LastMoveTime := by
  obtain ⟨p, hp, hstep⟩ := List.mem_filterMap.mp h
  obtain ⟨psid, prev⟩ := p
  simp only [metricStep] at hstep
  cases hrep : lookupA reports psid with
  | none => rw [hrep] at hstep; exact absurd hstep (by simp)
  | some report =>
    rw [hrep] at hstep
    dsimp only at hstep
    by_cases hin : psid ∈ aset
    · rw [if_pos hin] at hstep
      injection hstep with hstep
      obtain ⟨h1, h2⟩ := Prod.mk.injEq .. ▸ hstep
      subst h1
      exact ⟨prev, report, hp, hrep, hin, h2.symm⟩
    · rw [if_neg hin] at hstep
      exact absurd hstep (by simp)

theorem updateShardload_heartbeat (beh : StoreBehavior) (st : StoreState) (now : ℤ)
    (reports : List (ShardID × ShardStatusReport)) (assigned : Option AssignedState) :
    (updateShardload beh st now reports assigned).2.1.heartbeat = st.heartbeat := by
  unfold updateShardload
  cases beh.getStateErr with
  | some e => rfl
  | none =>
    dsimp only
    by_cases h : (newShardMetricsOf st.nsState.ShardMetrics reports
        (assignedSetOf assigned) now).isEmpty
    · rw [if_pos h]
    · rw [if_neg h]
      cases beh.updateShardMetricsErr with
      | some e => rfl
      | none => rfl

theorem updateShardload_writes (beh : StoreBehavior) (st : StoreState) (now : ℤ)
    (reports : List (ShardID × ShardStatusReport)) (assigned : Option AssignedState) :
    (updateShardload beh st now reports assigned).2.2 = [] ∨
    (updateShardload beh st now reports assigned).2.2 =
      [WriteOp.updateShardMetrics
        (newShardMetricsOf st.nsState.ShardMetrics reports (assignedSetOf assigned) now)] := by
  unfold updateShardload
  cases beh.getStateErr with
  | some e => exact Or.inl rfl
  | none =>
    dsimp only
    by_cases h : (newShardMetricsOf st.nsState.ShardMetrics reports
        (assignedSetOf assigned) now).isEmpty
    · rw [if_pos h]
      exact Or.inl rfl
    · rw [if_neg h]
      cases beh.updateShardMetricsErr with
      | some e => exact Or.inr rfl
      | none => exact Or.inr rfl

theorem recordAndUpdate_writes (beh : StoreBehavior) (st : StoreState) (now : ℤ)
    (req : ExecutorHeartbeatRequest) :
    (recordAndUpdate beh st now req).2.2 =
      [WriteOp.recordHeartbeat ⟨now, req.Status, req.ShardStatusReports⟩] ∨
    (recordAndUpdate beh st now req).2.2 =
      [WriteOp.recordHeartbeat ⟨now, req.Status, req.ShardStatusReports⟩,
       WriteOp.updateShardMetrics
         (newShardMetricsOf st.nsState.ShardMetrics req.ShardStatusReports
           (assignedSetOf st.assigned) now)] := by
  unfold recordAndUpdate
  cases beh.recordHeartbeatErr with
  | some e => exact Or.inl rfl
  | none =>
    dsimp only
    have hw := updateShardload_writes beh
      { st with heartbeat := some ⟨now, req.Status, req.ShardStatusReports⟩ }
      now req.ShardStatusReports st.assigned
    cases hu : updateShardload beh
        { st with heartbeat := some ⟨now, req.Status, req.ShardStatusReports⟩ }
        now req.ShardStatusReports st.assigned with
    | mk r rest =>
      obtain ⟨st2, w2⟩ := rest
      rw [hu] at hw
      dsimp only at hw
      cases r with
      | error e =>
        dsimp only
        rcases hw with hw | hw <;> rw [hw] <;> [exact Or.inl rfl; exact Or.inr rfl]
      | ok u =>
        dsimp only
        rcases hw with hw | hw <;> rw [hw] <;> [exact Or.inl rfl; exact Or.inr rfl]

theorem recordAndUpdate_heartbeat (beh : StoreBehavior) (st : StoreState) (now : ℤ)
    (req : ExecutorHeartbeatRequest) (hrec : beh.recordHeartbeatErr = none) :
    (recordAndUpdate beh st now req).2.1.heartbeat =
      some ⟨now, req.Status, req.ShardStatusReports⟩ := by
  unfold recordAndUpdate
  rw [hrec]
  dsimp only
  have hh := updateShardload_heartbeat beh
    { st with heartbeat := some ⟨now, req.Status, req.ShardStatusReports⟩ }
    now req.ShardStatusReports st.assigned
  cases hu : updateShardload beh
      { st with heartbeat := some ⟨now, req.Status, req.ShardStatusReports⟩ }
      now req.ShardStatusReports st.assigned with
  | mk r rest =>
    obtain ⟨st2, w2⟩ := rest
    rw [hu] at hh
    dsimp only at hh
    cases r with
    | error e => exact hh
    | ok u => exact hh

theorem recordAndUpdate_ok (beh : StoreBehavior) (st : StoreState) (now : ℤ)
    (req : ExecutorHeartbeatRequest) (r : ExecutorHeartbeatResponse)
    (hok : (recordAndUpdate beh st now req).1 = .ok r) :
    r = convertResponse st.assigned := by
  unfold recordAndUpdate at hok
  cases hrec : beh.recordHeartbeatErr with
  | some e => rw [hrec] at hok; exact absurd hok (by simp)
  | none =>
    rw [hrec] at hok
    dsimp only at hok
    cases hu : updateShardload beh
        { st with heartbeat := some ⟨now, req.Status, req.ShardStatusReports⟩ }
        now req.ShardStatusReports st.assigned with
    | mk r2 rest =>
      obtain ⟨st2, w2⟩ := rest
      rw [hu] at hok
      cases r2 with
      | error e => exact absurd hok (by simp)
      | ok u =>
        dsimp only at hok
        injection hok with hok
        exact hok.symm

theorem heartbeat_writes_cases (beh : StoreBehavior) (st : StoreState) (now : ℤ)
    (req : ExecutorHeartbeatRequest) :
    (Heartbeat beh st now req).2.2 = [] ∨
    (Heartbeat beh st now req).2.2 =
      [WriteOp.recordHeartbeat ⟨now, req.Status, req.ShardStatusReports⟩] ∨
    (Heartbeat beh st now req).2.2 =
      [WriteOp.recordHeartbeat ⟨now, req.Status, req.ShardStatusReports⟩,
       WriteOp.updateShardMetrics
         (newShardMetricsOf st.nsState.ShardMetrics req.ShardStatusReports
           (assignedSetOf st.assigned) now)] := by
  unfold Heartbeat
  cases beh.getHeartbeatErr with
  | some e => exact Or.inl rfl
  | none =>
    dsimp only
    cases st.heartbeat with
    | some prev =>
      dsimp only
      by_cases hgate : req.Status = prev.Status ∧ now - prev.LastHeartbeat < 2
      · rw [if_pos hgate]
        exact Or.inl rfl
      · rw [if_neg hgate]
        rcases recordAndUpdate_writes beh st now req with h | h
        · exact Or.inr (Or.inl h)
        · exact Or.inr (Or.inr h)
    | none =>
      rcases recordAndUpdate_writes beh st now req with h | h
      · exact Or.inr (Or.inl h)
      · exact Or.inr (Or.inr h)

/-- C9 (amended): every successful Heartbeat call answers with the response
built by convertResponse from the assigned state obtained by the initial
read: the assigned shards when an AssignedState exists, and the nil
(zero-valued) map, not an empty one, when none does. -/
theorem C9_response_from_read (beh : StoreBehavior) (st : StoreState) (now : ℤ)
    (req : ExecutorHeartbeatRequest) (r : ExecutorHeartbeatResponse)
    (hok : (Heartbeat beh st now req).1 = .ok r) :
    r = convertResponse st.assigned ∧
    r.ShardAssignments = (st.assigned).map AssignedState.AssignedShards := by
  have hmain : r = convertResponse st.assigned := by
    unfold Heartbeat at hok
    cases hgh : beh.getHeartbeatErr with
    | some e => rw [hgh] at hok; exact absurd hok (by simp)
    | none =>
      rw [hgh] at hok
      dsimp only at hok
      cases hhb : st.heartbeat with
      | some prev =>
        rw [hhb] at hok
        dsimp only at hok
        by_cases hgate : req.Status = prev.Status ∧ now - prev.LastHeartbeat < 2
        · rw [if_pos hgate] at hok
          dsimp only at hok
          injection hok with hok
          exact hok.symm
        · rw [if_neg hgate] at hok
          exact recordAndUpdate_ok beh st now req r hok
      | none =>
        rw [hhb] at hok
        exact recordAndUpdate_ok beh st now req r hok
  refine ⟨hmain, ?_⟩
  subst hmain
  cases st.assigned with
  | none => rfl
  | some a => rfl

theorem heartbeat_fresh_gated (beh : StoreBehavior) (st2 : StoreState) (now : ℤ)
    (req : ExecutorHeartbeatRequest) (rs : List (ShardID × ShardStatusReport))
    (h : st2.heartbeat = some ⟨now, req.Status, rs⟩) :
    (Heartbeat beh st2 now req).2.2 = [] := by
  unfold Heartbeat
  cases beh.getHeartbeatErr with
  | some e => rfl
  | none =>
    dsimp only
    rw [h]
    dsimp only
    rw [if_pos ⟨rfl, by omega⟩]

/-- C2 (amended): a heartbeat whose status is unchanged and which arrives
within 2 seconds of the previous one performs no store writes and answers
with the assignment obtained by the read; a second invocation with
identical inputs and no time advance (assuming RecordHeartbeat succeeds)
performs no store writes at all, and a single invocation performs at most
two store writes: one RecordHeartbeat and at most one UpdateShardMetrics. -/
theorem C2_rate_gate_idempotence (beh : StoreBehavior) (st : StoreState) (now : ℤ)
    (req : ExecutorHeartbeatRequest) (hrec : beh.recordHeartbeatErr = none) :
    (∀ prev, beh.getHeartbeatErr = none → st.heartbeat = some prev →
      req.Status = prev.Status → now - prev.LastHeartbeat < 2 →
      Heartbeat beh st now req = (.ok (convertResponse st.assigned), st, [])) ∧
    (Heartbeat beh (Heartbeat beh st now req).2.1 now req).2.2 = [] ∧
    (Heartbeat beh st now req).2.2.length ≤ 2 := by
  refine ⟨?_, ?_, ?_⟩
  · intro prev hgh hhb hst hlt
    unfold Heartbeat
    rw [hgh]
    dsimp only
    rw [hhb]
    dsimp only
    rw [if_pos ⟨hst, hlt⟩]
  · cases hgh : beh.getHeartbeatErr with
    | some e =>
      have h1 : (Heartbeat beh st now req).2.1 = st := by
        unfold Heartbeat
        rw [hgh]
      rw [h1]
      unfold Heartbeat
      rw [hgh]
    | none =>
      cases hhb : st.heartbeat with
      | some prev =>
        by_cases hgate : req.Status = prev.Status ∧ now - prev.LastHeartbeat < 2
        · have h1 : (Heartbeat beh st now req).2.1 = st := by
            unfold Heartbeat
            rw [hgh]
            dsimp only
            rw [hhb]
            dsimp only
            rw [if_pos hgate]
          rw [h1]
          unfold Heartbeat
          rw [hgh]
          dsimp only
          rw [hhb]
          dsimp only
          rw [if_pos hgate]
        · have h1 : (Heartbeat beh st now req).2.1 = (recordAndUpdate beh st now req).2.1 := by
            unfold Heartbeat
            rw [hgh]
            dsimp only
            rw [hhb]
            dsimp only
            rw [if_neg hgate]
          rw [h1]
          exact heartbeat_fresh_gated beh _ now req req.ShardStatusReports
            (recordAndUpdate_heartbeat beh st now req hrec)
      | none =>
        have h1 : (Heartbeat beh st now req).2.1 = (recordAndUpdate beh st now req).2.1 := by
          unfold Heartbeat
          rw [hgh]
          dsimp only
          rw [hhb]
        rw [h1]
        exact heartbeat_fresh_gated beh _ now req req.ShardStatusReports
          (recordAndUpdate_heartbeat beh st now req hrec)
  · rcases heartbeat_writes_cases beh st now req with h | h | h <;> rw [h] <;> simp

/-- C3: every ShardMetrics map handed to UpdateShardMetrics during a
heartbeat call keys only shards that are both assigned to the reporting
executor (per the initial read) and present in the request's reports. -/
theorem C3_metrics_subset (beh : StoreBehavior) (st : StoreState) (now : ℤ)
    (req : ExecutorHeartbeatRequest) (m : List (ShardID × ShardMetrics))
    (hm : WriteOp.updateShardMetrics m ∈ (Heartbeat beh st now req).2.2) :
    ∀ sid ∈ m.map Prod.fst,
      sid ∈ assignedSetOf st.assigned ∧ sid ∈ req.ShardStatusReports.map Prod.fst := by
  have hmeq : m = newShardMetricsOf st.nsState.ShardMetrics req.ShardStatusReports
      (assignedSetOf st.assigned) now := by
    rcases heartbeat_writes_cases beh st now req with h | h | h <;> rw [h] at hm
    · simp at hm
    · simp at hm
    · rcases List.mem_cons.mp hm with h2 | h2
      · exact absurd h2 (by simp)
      · rcases List.mem_cons.mp h2 with h3 | h3
        · injection h3
        · simp at h3
  subst hmeq
  intro sid hsid
  obtain ⟨p, hp, hps⟩ := List.mem_map.mp hsid
  obtain ⟨psid, mm⟩ := p
  dsimp only at hps
  subst hps
  obtain ⟨prev, report, _, hrep, hin, _⟩ := mem_newShardMetricsOf hp
  exact ⟨hin, List.mem_map_of_mem Prod.fst (lookupA_mem hrep)⟩

/-- C4: every smoothed value the handler stores follows the EWMA recurrence
with alpha = 0.1: in updateShardload (part_001) each written metric smooths
the report against the previously stored SmoothedLoad, and in
smoothShardLoads (executor.go) each output report smooths the current
report against the previous heartbeat's value, falling back to the raw
report when no previous value exists (initialization equals the first
report); on finite values the recurrence is exactly
0.1*report + 0.9*previous. -/
theorem C4_ewma_smoothing :
    (∀ (sm : List (ShardID × ShardMetrics)) (reports : List (ShardID × ShardStatusReport))
      (aset : List ShardID) (now : ℤ) (sid : ShardID) (mm : ShardMetrics),
      (sid, mm) ∈ newShardMetricsOf sm reports aset now →
      ∃ prev report, (sid, prev) ∈ sm ∧ lookupA reports sid = some report ∧
        mm.SmoothedLoad = ewma report.ShardLoad prev.SmoothedLoad) ∧
    (∀ (previous current : List (ShardID × ShardStatusReport)) (sid : ShardID)
      (rep2 : ShardStatusReport),
      (sid, rep2) ∈ (smoothShardLoads previous current).1 →
      ∃ cur, (sid, cur) ∈ current ∧
        ((∃ prevR, lookupA previous sid = some prevR ∧
            rep2.ShardLoad = ewma cur.ShardLoad prevR.ShardLoad) ∨
          (lookupA previous sid = none ∧ rep2.ShardLoad = cur.ShardLoad))) ∧
    (∀ r p : ℚ, ewma (GoFloat.finite r) (GoFloat.finite p) =
      GoFloat.finite (1 / 10 * r + 9 / 10 * p)) := by
  refine ⟨?_, ?_, ?_⟩
  · intro sm reports aset now sid mm hmem
    obtain ⟨prev, report, hprev, hrep, _, hmm⟩ := mem_newShardMetricsOf hmem
    exact ⟨prev, report, hprev, hrep, by rw [hmm]⟩
  · intro previous current sid rep2 hmem
    unfold smoothShardLoads at hmem
    by_cases hcur : current.isEmpty
    · rw [if_pos hcur] at hmem
      simp at hmem
    · rw [if_neg hcur] at hmem
      dsimp only at hmem
      by_cases hres : (current.map (fun p =>
          (p.1, ShardStatusReport.mk p.2.Status
            (match lookupA previous p.1 with
             | some prevReport => ewma p.2.ShardLoad prevReport.ShardLoad
             | none => p.2.ShardLoad)))).isEmpty
      · rw [if_pos hres] at hmem
        simp at hmem
      · rw [if_neg hres] at hmem
        dsimp only at hmem
        obtain ⟨p, hp, hpe⟩ := List.mem_map.mp hmem
        obtain ⟨psid, cur⟩ := p
        obtain ⟨h1, h2⟩ := Prod.mk.injEq .. ▸ hpe
        dsimp only at h1 h2
        subst h1
        refine ⟨cur, hp, ?_⟩
        cases hprev : lookupA previous psid with
        | some prevR =>
          refine Or.inl ⟨prevR, rfl, ?_⟩
          rw [← h2]
          simp only [hprev]
        | none =>
          refine Or.inr ⟨rfl, ?_⟩
          rw [← h2]
          simp only [hprev]
  · intro r p
    simp [ewma, GoFloat.mulPos, GoFloat.add]

/-- C5 (amended): the balancer coerces non-finite loads to zero via
safeLoad, keeping finite values unchanged; the heartbeat handler does not
coerce: its EWMA propagates NaN and infinities, so a non-finite input
yields a non-finite stored SmoothedLoad. -/
theorem C5_safeLoad_coercion :
    safeLoad GoFloat.nan = 0 ∧
    (∀ b, safeLoad (GoFloat.inf b) = 0) ∧
    (∀ q, safeLoad (GoFloat.finite q) = q) ∧
    (∀ stats sid, shardLoad stats sid =
      (match lookupA stats sid with
       | none => 0
       | some stat => safeLoad stat.SmoothedLoad)) ∧
    (∀ x, ewma GoFloat.nan x = GoFloat.nan) ∧
    (∀ b q, ewma (GoFloat.inf b) (GoFloat.finite q) = GoFloat.inf b) := by
  refine ⟨rfl, fun b => rfl, fun q => rfl, fun stats sid => rfl, ?_, ?_⟩
  · intro x
    cases x <;> rfl
  · intro b q
    rfl

/-- C1: at the S4 scenario (prior heartbeat 5 s old with unchanged status,
shard-1 assigned with stored SmoothedLoad 0.4, request reporting load 0.5
for shard-1, UpdateShardMetrics answering ErrVersionConflict), the handler
of part_001 returns the version-conflict error to the caller instead of
swallowing it, contradicting the spec and the repository's own test. -/
theorem C1_version_conflict_surfaced :
    (Heartbeat ⟨none, none, none, some StoreErr.versionConflict⟩
      ⟨some ⟨95, ExecutorStatus.ACTIVE, []⟩,
       some ⟨[("shard-1", ⟨AssignmentStatus.READY⟩)]⟩,
       ⟨[("shard-1", ⟨GoFloat.finite (2/5), 90, 0⟩)]⟩⟩
      100
      ⟨"test-namespace", "test-executor", ExecutorStatus.ACTIVE,
       [("shard-1", ⟨ShardStatus.READY, GoFloat.finite (1/2)⟩)]⟩).1
    = .error StoreErr.versionConflict := by
  norm_num +decide [Heartbeat, recordAndUpdate, updateShardload, newShardMetricsOf,
    metricStep, assignedSetOf, lookupA, List.filterMap, ewma, GoFloat.mulPos, GoFloat.add]

/-- C2 counterexample: on the S3 scenario the first of two identical
invocations with no time advance already performs two store writes (one
RecordHeartbeat and one UpdateShardMetrics), refuting "at most one store
write"; the second invocation performs none. -/
theorem C2_two_writes_counterexample :
    (Heartbeat ⟨none, none, none, none⟩
      ⟨some ⟨95, ExecutorStatus.ACTIVE, []⟩,
       some ⟨[("shard-1", ⟨AssignmentStatus.READY⟩)]⟩,
       ⟨[("shard-1", ⟨GoFloat.finite (2/5), 90, 0⟩)]⟩⟩
      100
      ⟨"test-namespace", "test-executor", ExecutorStatus.ACTIVE,
       [("shard-1", ⟨ShardStatus.READY, GoFloat.finite (1/2)⟩)]⟩).2.2.length = 2 ∧
    (Heartbeat ⟨none, none, none, none⟩
      (Heartbeat ⟨none, none, none, none⟩
        ⟨some ⟨95, ExecutorStatus.ACTIVE, []⟩,
         some ⟨[("shard-1", ⟨AssignmentStatus.READY⟩)]⟩,
         ⟨[("shard-1", ⟨GoFloat.finite (2/5), 90, 0⟩)]⟩⟩
        100
        ⟨"test-namespace", "test-executor", ExecutorStatus.ACTIVE,
         [("shard-1", ⟨ShardStatus.READY, GoFloat.finite (1/2)⟩)]⟩).2.1
      100
      ⟨"test-namespace", "test-executor", ExecutorStatus.ACTIVE,
       [("shard-1", ⟨ShardStatus.READY, GoFloat.finite (1/2)⟩)]⟩).2.2.length = 0 := by
  constructor <;>
    norm_num +decide [Heartbeat, recordAndUpdate, updateShardload, newShardMetricsOf,
      metricStep, assignedSetOf, lookupA, List.filterMap, ewma, GoFloat.mulPos,
      GoFloat.add, applyShardMetrics, setA]

theorem C2_witness :
    Heartbeat ⟨none, none, none, none⟩
      ⟨some ⟨99, ExecutorStatus.ACTIVE, []⟩,
       some ⟨[("shard-1", ⟨AssignmentStatus.READY⟩)]⟩, ⟨[]⟩⟩
      100
      ⟨"test-namespace", "test-executor", ExecutorStatus.ACTIVE, []⟩ =
      (.ok (convertResponse (some ⟨[("shard-1", ⟨AssignmentStatus.READY⟩)]⟩)),
        ⟨some ⟨99, ExecutorStatus.ACTIVE, []⟩,
         some ⟨[("shard-1", ⟨AssignmentStatus.READY⟩)]⟩, ⟨[]⟩⟩, []) ∧
    (Heartbeat ⟨none, none, none, none⟩
      (Heartbeat ⟨none, none, none, none⟩
        ⟨some ⟨99, ExecutorStatus.ACTIVE, []⟩,
         some ⟨[("shard-1", ⟨AssignmentStatus.READY⟩)]⟩, ⟨[]⟩⟩
        100
        ⟨"test-namespace", "test-executor", ExecutorStatus.ACTIVE, []⟩).2.1
      100
      ⟨"test-namespace", "test-executor", ExecutorStatus.ACTIVE, []⟩).2.2 = [] := by
  have h := C2_rate_gate_idempotence ⟨none, none, none, none⟩
    ⟨some ⟨99, ExecutorStatus.ACTIVE, []⟩,
     some ⟨[("shard-1", ⟨AssignmentStatus.READY⟩)]⟩, ⟨[]⟩⟩
    100
    ⟨"test-namespace", "test-executor", ExecutorStatus.ACTIVE, []⟩ rfl
  exact ⟨h.1 ⟨99, ExecutorStatus.ACTIVE, []⟩ rfl rfl rfl (by norm_num), h.2.1⟩

theorem C3_witness :
    ("shard-1" : ShardID) ∈
      assignedSetOf (some ⟨[("shard-1", ⟨AssignmentStatus.READY⟩)]⟩) ∧
    ("shard-1" : ShardID) ∈
      ([("shard-1", (⟨ShardStatus.READY, GoFloat.finite (1/2)⟩ : ShardStatusReport)),
        ("shard-2", ⟨ShardStatus.READY, GoFloat.finite (4/5)⟩)]).map Prod.fst := by
  have hm : WriteOp.updateShardMetrics
      [("shard-1", ShardMetrics.mk (GoFloat.finite (41/100)) 100 0)] ∈
      (Heartbeat ⟨none, none, none, none⟩
        ⟨some ⟨95, ExecutorStatus.ACTIVE, []⟩,
         some ⟨[("shard-1", ⟨AssignmentStatus.READY⟩)]⟩,
         ⟨[("shard-1", ⟨GoFloat.finite (2/5), 90, 0⟩)]⟩⟩
        100
        ⟨"test-namespace", "test-executor", ExecutorStatus.ACTIVE,
         [("shard-1", ⟨ShardStatus.READY, GoFloat.finite (1/2)⟩),
          ("shard-2", ⟨ShardStatus.READY, GoFloat.finite (4/5)⟩)]⟩).2.2 := by
    norm_num +decide [Heartbeat, recordAndUpdate, updateShardload, newShardMetricsOf,
      metricStep, assignedSetOf, lookupA, List.filterMap, ewma, GoFloat.mulPos,
      GoFloat.add, applyShardMetrics, setA]
  exact C3_metrics_subset _ _ _ _ _ hm "shard-1" (by simp)

theorem C4_witness :
    newShardMetricsOf [("shard-1", ⟨GoFloat.finite (2/5), 90, 0⟩)]
      [("shard-1", ⟨ShardStatus.READY, GoFloat.finite (1/2)⟩),
       ("shard-2", ⟨ShardStatus.READY, GoFloat.finite (4/5)⟩)]
      ["shard-1"] 100
      = [("shard-1", ShardMetrics.mk (GoFloat.finite (41/100)) 100 0)] ∧
    (smoothShardLoads [] [("shard-1", ⟨ShardStatus.READY, GoFloat.finite (1/2)⟩)]).1
      = [("shard-1", ⟨ShardStatus.READY, GoFloat.finite (1/2)⟩)] ∧
    ewma (GoFloat.finite (1/2)) (GoFloat.finite (2/5)) = GoFloat.finite (41/100) := by
  refine ⟨?_, ?_, ?_⟩
  · norm_num +decide [newShardMetricsOf, metricStep, lookupA, List.filterMap, ewma,
      GoFloat.mulPos, GoFloat.add]
  · norm_num +decide [smoothShardLoads, lookupA]
  · rw [C4_ewma_smoothing.2.2 (1/2) (2/5)]
    norm_num

/-- C5 counterexample: a NaN report for an assigned shard with a finite
stored value makes the handler store a NaN SmoothedLoad: the value is not
coerced to zero and the stored value is not finite. -/
theorem C5_nan_stored_counterexample :
    (lookupA (newShardMetricsOf [("shard-1", ⟨GoFloat.finite (2/5), 90, 0⟩)]
        [("shard-1", ⟨ShardStatus.READY, GoFloat.nan⟩)] ["shard-1"] 100)
      "shard-1").map ShardMetrics.SmoothedLoad = some GoFloat.nan ∧
    GoFloat.nan.isFinite = false := by
  constructor
  · norm_num +decide [newShardMetricsOf, metricStep, lookupA, List.filterMap, ewma,
      GoFloat.mulPos, GoFloat.add]
  · rfl

/-- C9 counterexample: a successful first heartbeat (no assigned state)
returns a response whose ShardAssignments map is nil, not an empty map. -/
theorem C9_nil_map_counterexample :
    (Heartbeat ⟨none, none, none, none⟩ ⟨none, none, ⟨[]⟩⟩ 100
      ⟨"test-namespace", "test-executor", ExecutorStatus.ACTIVE, []⟩).1
      = .ok ⟨none⟩ ∧
    (⟨none⟩ : ExecutorHeartbeatResponse) ≠ ⟨some []⟩ := by
  constructor
  · norm_num +decide [Heartbeat, recordAndUpdate, updateShardload, newShardMetricsOf,
      metricStep, assignedSetOf, lookupA, List.filterMap, convertResponse]
  · intro h
    injection h with h
    exact absurd h (by simp)

theorem C9_witness :
    (ExecutorHeartbeatResponse.mk
        (some [("shard-1", ⟨AssignmentStatus.READY⟩)])).ShardAssignments =
      (some (AssignedState.mk [("shard-1", ⟨AssignmentStatus.READY⟩)])).map
        AssignedState.AssignedShards := by
  have h := C9_response_from_read ⟨none, none, none, none⟩
    ⟨some ⟨99, ExecutorStatus.ACTIVE, []⟩,
     some ⟨[("shard-1", ⟨AssignmentStatus.READY⟩)]⟩, ⟨[]⟩⟩
    100
    ⟨"test-namespace", "test-executor", ExecutorStatus.ACTIVE, []⟩
    ⟨some [("shard-1", ⟨AssignmentStatus.READY⟩)]⟩
    (by norm_num +decide [Heartbeat, recordAndUpdate, updateShardload, newShardMetricsOf,
      metricStep, assignedSetOf, lookupA, List.filterMap, convertResponse])
  exact h.2

theorem C6_witness :
    (getA (redistributeToEmptyExecutors 1000
        [("exec-1", 7), ("exec-2", 0), ("exec-3", 1)]
        [("s1", ⟨GoFloat.finite 5, 1000⟩), ("s2", ⟨GoFloat.finite 2, -99000⟩),
         ("s3", ⟨GoFloat.finite 1, -99000⟩)]
        [("exec-1", ["s1", "s2"]), ("exec-2", []), ("exec-3", ["s3"])]).1
      "exec-2" []).length ≤ 1 ∧
    (redistributeToEmptyExecutors 1000
      [("exec-1", 7), ("exec-2", 0), ("exec-3", 1)]
      [("s1", ⟨GoFloat.finite 5, 1000⟩), ("s2", ⟨GoFloat.finite 2, -99000⟩),
       ("s3", ⟨GoFloat.finite 1, -99000⟩)]
      [("exec-1", ["s1", "s2"]), ("exec-2", []), ("exec-3", ["s3"])]).1
      = [("exec-2", ["s2"])] := by
  have h := C6_redistribute_cooldown 1000
    [("exec-1", 7), ("exec-2", 0), ("exec-3", 1)]
    [("s1", ⟨GoFloat.finite 5, 1000⟩), ("s2", ⟨GoFloat.finite 2, -99000⟩),
     ("s3", ⟨GoFloat.finite 1, -99000⟩)]
    [("exec-1", ["s1", "s2"]), ("exec-2", []), ("exec-3", ["s3"])]
    (by decide)
  refine ⟨h.1 "exec-2", ?_⟩
  norm_num +decide [redistributeToEmptyExecutors, collectDonors, FindElligbleShards,
    shardLoad, safeLoad, CoolDownTime, List.insertionSort, List.orderedInsert, donorLess,
    stealWalk, popDonor, appendAt, adjustQ, setA, getA, lookupA, removeShard]

theorem C7_witness :
    assignUnassignedShards ["sA", "sB"] [("exec-1", 0), ("exec-2", 0)]
      [("sA", ⟨GoFloat.finite 3, 0⟩), ("sB", ⟨GoFloat.finite 1, 0⟩)]
      [("exec-1", []), ("exec-2", [])]
      = [("exec-1", ["sA"]), ("exec-2", ["sB"])] ∧
    List.Perm
      (flattenShards (assignUnassignedShards ["sA", "sB"] [("exec-1", 0), ("exec-2", 0)]
        [("sA", ⟨GoFloat.finite 3, 0⟩), ("sB", ⟨GoFloat.finite 1, 0⟩)]
        [("exec-1", []), ("exec-2", [])]))
      ["sA", "sB"] ∧
    (flattenShards (assignUnassignedShards ["sA", "sB"] [("exec-1", 0), ("exec-2", 0)]
        [("sA", ⟨GoFloat.finite 3, 0⟩), ("sB", ⟨GoFloat.finite 1, 0⟩)]
        [("exec-1", []), ("exec-2", [])])).count "sA" = 1 := by
  have h := (C7_assign_unassigned ["sA", "sB"] [("exec-1", 0), ("exec-2", 0)]
    [("sA", ⟨GoFloat.finite 3, 0⟩), ("sB", ⟨GoFloat.finite 1, 0⟩)]
    [("exec-1", []), ("exec-2", [])]).2 (by simp)
  refine ⟨?_, h.1, h.2.2 (by decide) "sA" (by simp)⟩
  norm_num +decide [assignUnassignedShards, assignLoop, findLeastLoadedExecutor,
    shardLoad, safeLoad, shardHeavier, List.insertionSort, List.orderedInsert, flleStep,
    appendAt, adjustQ, setA, getA, lookupA]

theorem C8_witness :
    findLeastLoadedExecutor [] [] = .error "empty loads array" ∧
    findLeastLoadedExecutor [("exec-2", (0 : ℚ)), ("exec-1", 0)]
      [("exec-2", 1), ("exec-1", 1)] = .ok "exec-1" := by
  refine ⟨(C8_find_least_loaded [] []).1 rfl, ?_⟩
  obtain ⟨m, hm, hmem, _, _, htie⟩ :=
    (C8_find_least_loaded [("exec-2", (0 : ℚ)), ("exec-1", 0)]
      [("exec-2", 1), ("exec-1", 1)]).2 (by simp) (by decide)
  have heval : findLeastLoadedExecutor [("exec-2", (0 : ℚ)), ("exec-1", 0)]
      [("exec-2", 1), ("exec-1", 1)] = .ok "exec-1" := by
    norm_num +decide [findLeastLoadedExecutor, List.insertionSort, List.orderedInsert,
      flleStep, getA, lookupA]
  exact heval

/-- C10 counterexample: on the basic redistribution scenario the call
removes the stolen shard s1 from exec-1 inside the assignments argument:
the map after the call differs from the map before it. -/
theorem C10_mutation_counterexample :
    (redistributeToEmptyExecutors 1000
      [("exec-1", 7), ("exec-2", 0), ("exec-3", 1)]
      [("s1", ⟨GoFloat.finite 5, -99000⟩), ("s2", ⟨GoFloat.finite 2, -99000⟩),
       ("s3", ⟨GoFloat.finite 1, -99000⟩)]
      [("exec-1", ["s1", "s2"]), ("exec-2", []), ("exec-3", ["s3"])]).2.2
      = [("exec-1", ["s2"]), ("exec-2", []), ("exec-3", ["s3"])] ∧
    (redistributeToEmptyExecutors 1000
      [("exec-1", 7), ("exec-2", 0), ("exec-3", 1)]
      [("s1", ⟨GoFloat.finite 5, -99000⟩), ("s2", ⟨GoFloat.finite 2, -99000⟩),
       ("s3", ⟨GoFloat.finite 1, -99000⟩)]
      [("exec-1", ["s1", "s2"]), ("exec-2", []), ("exec-3", ["s3"])]).2.2
      ≠ [("exec-1", ["s1", "s2"]), ("exec-2", []), ("exec-3", ["s3"])] := by
  have heval : (redistributeToEmptyExecutors 1000
      [("exec-1", 7), ("exec-2", 0), ("exec-3", 1)]
      [("s1", ⟨GoFloat.finite 5, -99000⟩), ("s2", ⟨GoFloat.finite 2, -99000⟩),
       ("s3", ⟨GoFloat.finite 1, -99000⟩)]
      [("exec-1", ["s1", "s2"]), ("exec-2", []), ("exec-3", ["s3"])]).2.2
      = [("exec-1", ["s2"]), ("exec-2", []), ("exec-3", ["s3"])] := by
    norm_num +decide [redistributeToEmptyExecutors, collectDonors, FindElligbleShards,
      shardLoad, safeLoad, CoolDownTime, List.insertionSort, List.orderedInsert,
      donorLess, stealWalk, popDonor, appendAt, adjustQ, setA, getA, lookupA, removeShard]
  refine ⟨heval, ?_⟩
  rw [heval]
  decide
